import Mathlib

/-!
# Verification of the dtqueue storage/ordering core

Shallow embedding of the dtqueue repository (Rust) in Lean 4.

The authoritative core is `src/storage.rs` (the `Storage` trait with its two
backends `InMemoryStorage` and `SqliteStorage`), together with `src/item.rs`
(`QueueItem`), `src/utils.rs` (`sanitize_queue_name`) and — as a legacy layer
kept for comparison — `src/handlers.rs`/`src/appdb.rs`.

Modelling conventions:
* A chrono `DateTime<Utc>` is modelled as an `Int`: the number of nanoseconds
  since the Unix epoch.  `timestamp_millis` is floor division by 10^6 and
  `from_timestamp_millis` multiplies back by 10^6.
* Machine `i64` values live inside `Int`; the only place where the machine
  width matters is the sentinel `i64::MIN`, written out explicitly.
* A `BTreeMap` is modelled as a key-sorted, duplicate-free association list
  (the representation invariant is `SortedQ` below); `first_key_value` is
  `List.head?` and `pop_first` takes the head.
* Fallible operations return `Except StorageError`; a mutating operation
  `&self → Result<T>` becomes `State → Except StorageError T × State`, where
  an error result is paired with the unchanged input state (the Rust error
  paths return before mutating).
* `RwLock` poisoning and SQLite I/O failures have no counterpart in a pure
  model; the corresponding error constructors exist but are never produced.
-/

/-- `i64::MIN` — the sentinel used by `SqliteStorage` for an absent
`datetime_secondary` (storage.rs line 84 and 149). -/
def i64MIN : Int := -9223372036854775808

/-- chrono `DateTime::timestamp_millis`: whole milliseconds since the epoch,
rounding toward negative infinity (`timestamp() * 1000 + subsec_millis`). -/
def timestampMillis (t : Int) : Int := t.fdiv 1000000

/-- chrono `DateTime::from_timestamp_millis`: the instant `ms` milliseconds
after the epoch (sub-millisecond part zero). -/
def fromTimestampMillis (ms : Int) : Int := ms * 1000000

/-- Nanosecond instants representable as a chrono `DateTime`.  chrono's range
is about ±262143 years around the common era; every representable instant lies
within ±266000 years ≈ ±8.4115584e21 ns, the enclosing bound used here. -/
def chronoRepresentable (t : Int) : Prop :=
  -8411558400000000000000 ≤ t ∧ t ≤ 8411558400000000000000

instance (t : Int) : Decidable (chronoRepresentable t) := by
  unfold chronoRepresentable
  exact inferInstance

/-- `src/item.rs` `QueueItem`: primary datetime, optional secondary datetime,
message payload. -/
structure QueueItem where
  datetime : Int
  datetime_secondary : Option Int
  message : String
deriving DecidableEq, Repr

/-- A queue key: the pair `(datetime, datetime_secondary)` (full precision). -/
abbrev Key := Int × Option Int

/-- The key of a `QueueItem`. -/
def itemKey (it : QueueItem) : Key := (it.datetime, it.datetime_secondary)

/-- Rust's derived `Ord` on `Option<DateTime<Utc>>`: `None` sorts strictly
before any `Some`, two `Some`s compare by value. -/
def optLtb : Option Int → Option Int → Bool
  | none, some _ => true
  | some a, some b => decide (a < b)
  | _, _ => false

/-- Rust's derived lexicographic `Ord` on `(DateTime<Utc>, Option<DateTime<Utc>>)`:
ascending primary, ties broken by ascending secondary, absent secondary first.
This is exactly the total order of spec §3. -/
def keyLtb (a b : Key) : Bool :=
  decide (a.1 < b.1) || (decide (a.1 = b.1) && optLtb a.2 b.2)

/-- Lexicographic order on the encoded `(datetime, datetime_secondary)` BIGINT
pairs — the `ORDER BY datetime ASC, datetime_secondary ASC` of the SQL. -/
def pairLtb (a b : Int × Int) : Bool :=
  decide (a.1 < b.1) || (decide (a.1 = b.1) && decide (a.2 < b.2))

theorem optLtb_irrefl (a : Option Int) : optLtb a a = false := by
  cases a <;> simp [optLtb]

theorem optLtb_total {a b : Option Int} (h1 : optLtb a b = false)
    (h2 : optLtb b a = false) : a = b := by
  cases a <;> cases b <;> simp_all [optLtb] <;> omega

theorem optLtb_trans {a b c : Option Int} (h1 : optLtb a b = true)
    (h2 : optLtb b c = true) : optLtb a c = true := by
  cases a <;> cases b <;> cases c <;> simp_all [optLtb] <;> omega

theorem keyLtb_irrefl (a : Key) : keyLtb a a = false := by
  simp [keyLtb, optLtb_irrefl]

theorem keyLtb_total {a b : Key} (h1 : keyLtb a b = false)
    (h2 : keyLtb b a = false) : a = b := by
  obtain ⟨a1, a2⟩ := a
  obtain ⟨b1, b2⟩ := b
  cases a2 <;> cases b2 <;> simp_all [keyLtb, optLtb] <;> omega

theorem keyLtb_trans {a b c : Key} (h1 : keyLtb a b = true)
    (h2 : keyLtb b c = true) : keyLtb a c = true := by
  obtain ⟨a1, a2⟩ := a
  obtain ⟨b1, b2⟩ := b
  obtain ⟨c1, c2⟩ := c
  cases a2 <;> cases b2 <;> cases c2 <;> simp_all [keyLtb, optLtb] <;> omega

theorem pairLtb_irrefl (a : Int × Int) : pairLtb a a = false := by
  simp [pairLtb]

theorem pairLtb_total {a b : Int × Int} (h1 : pairLtb a b = false)
    (h2 : pairLtb b a = false) : a = b := by
  obtain ⟨a1, a2⟩ := a
  obtain ⟨b1, b2⟩ := b
  simp only [pairLtb, Bool.or_eq_false_iff, Bool.and_eq_false_iff,
    decide_eq_false_iff_not, not_lt] at h1 h2
  have h : a1 = b1 ∧ a2 = b2 := by omega
  obtain ⟨h1', h2'⟩ := h
  subst h1'
  subst h2'
  rfl

theorem pairLtb_trans {a b c : Int × Int} (h1 : pairLtb a b = true)
    (h2 : pairLtb b c = true) : pairLtb a c = true := by
  obtain ⟨a1, a2⟩ := a
  obtain ⟨b1, b2⟩ := b
  obtain ⟨c1, c2⟩ := c
  simp only [pairLtb, Bool.or_eq_true, Bool.and_eq_true, decide_eq_true_eq] at *
  omega

/-- `src/storage.rs` `StorageError`.  `Database` and `PoolError` wrap backend
I/O failures and are never produced by the pure model; `LockError` models
`RwLock` poisoning, which likewise cannot occur here. -/
inductive StorageError where
  | Database (msg : String)
  | QueueNotFound (q : String)
  | LockError
  | PoolError (msg : String)
deriving DecidableEq, Repr

/-- `InMemoryQueue = BTreeMap<(DateTime<Utc>, Option<DateTime<Utc>>), String>`,
modelled as a key-sorted duplicate-free association list. -/
abbrev InMemoryQueue := List (Key × String)

/-- The `BTreeMap` representation invariant: entries strictly sorted by key. -/
def SortedQ (l : InMemoryQueue) : Prop :=
  l.Pairwise (fun a b => keyLtb a.1 b.1 = true)

instance (l : InMemoryQueue) : Decidable (SortedQ l) := by
  unfold SortedQ
  exact inferInstance

/-- `BTreeMap::insert`: insert `(k, v)`, overwriting the entry at an equal
key, keeping the list sorted. -/
def btreeInsert (k : Key) (v : String) : InMemoryQueue → InMemoryQueue
  | [] => [(k, v)]
  | e :: rest =>
    if keyLtb k e.1 then (k, v) :: e :: rest
    else if k = e.1 then (k, v) :: rest
    else e :: btreeInsert k v rest

/-- Association-list lookup by exact key (first match). -/
def qlookup : InMemoryQueue → Key → Option String
  | [], _ => none
  | e :: rest, k => if e.1 = k then some e.2 else qlookup rest k

theorem btreeInsert_mem {k : Key} {v : String} {l : InMemoryQueue} {x : Key × String}
    (h : x ∈ btreeInsert k v l) : x = (k, v) ∨ x ∈ l := by
  induction l with
  | nil => simpa [btreeInsert] using h
  | cons e rest ih =>
    simp only [btreeInsert] at h
    split at h
    · simpa [List.mem_cons, or_assoc] using h
    · split at h
      · rcases List.mem_cons.mp h with h' | h'
        · exact Or.inl h'
        · exact Or.inr (List.mem_cons_of_mem e h')
      · rcases List.mem_cons.mp h with h' | h'
        · exact Or.inr (h' ▸ List.mem_cons_self e rest)
        · rcases ih h' with h'' | h''
          · exact Or.inl h''
          · exact Or.inr (List.mem_cons_of_mem e h'')

theorem btreeInsert_sorted {k : Key} {v : String} {l : InMemoryQueue}
    (h : SortedQ l) : SortedQ (btreeInsert k v l) := by
  induction l with
  | nil => simp [btreeInsert, SortedQ]
  | cons e rest ih =>
    rw [SortedQ, List.pairwise_cons] at h
    obtain ⟨he, hrest⟩ := h
    simp only [btreeInsert]
    split
    · rename_i hlt
      rw [SortedQ, List.pairwise_cons]
      refine ⟨?_, List.pairwise_cons.mpr ⟨he, hrest⟩⟩
      intro x hx
      rcases List.mem_cons.mp hx with hx' | hx'
      · exact hx' ▸ hlt
      · exact keyLtb_trans hlt (he x hx')
    · split
      · rename_i hnlt heq
        rw [SortedQ, List.pairwise_cons]
        constructor
        · intro x hx
          exact heq ▸ he x hx
        · exact hrest
      · rename_i hnlt hne
        rw [SortedQ, List.pairwise_cons]
        refine ⟨?_, ih hrest⟩
        intro x hx
        rcases btreeInsert_mem hx with hx' | hx'
        · subst hx'
          have h1 : keyLtb k e.1 = false := by
            simpa using hnlt
          by_cases h2 : keyLtb e.1 k = true
          · exact h2
          · exact absurd (keyLtb_total h1 (by simpa using h2)) hne
        · exact he x hx'

theorem btreeInsert_qlookup_self {k : Key} {v : String} {l : InMemoryQueue} :
    qlookup (btreeInsert k v l) k = some v := by
  induction l with
  | nil => simp [btreeInsert, qlookup]
  | cons e rest ih =>
    simp only [btreeInsert]
    split
    · simp [qlookup]
    · split
      · simp [qlookup]
      · rename_i hnlt hne
        have hne' : ¬ (e.1 = k) := fun h => hne h.symm
        simp [qlookup, hne', ih]

theorem btreeInsert_qlookup_other {k k' : Key} {v : String} {l : InMemoryQueue}
    (hne : k' ≠ k) : qlookup (btreeInsert k v l) k' = qlookup l k' := by
  have hkk : ¬ (k = k') := fun h => hne h.symm
  induction l with
  | nil => simp [btreeInsert, qlookup, hkk]
  | cons e rest ih =>
    simp only [btreeInsert]
    split
    · simp [qlookup, hkk]
    · split
      · rename_i hnlt heq
        have he' : ¬ (e.1 = k') := by
          rw [← heq]
          exact hkk
        simp [qlookup, hkk, he']
      · by_cases he : e.1 = k'
        · simp [qlookup, he]
        · simp [qlookup, he, ih]

/-- `src/storage.rs` `InMemoryStorage`: an allow-list of queue names and a map
from queue name to its `InMemoryQueue` (the `RwLock`/`HashMap` pair, modelled
as an association list with distinct names). -/
structure InMemoryStorage where
  allowed_queues : List String
  queues : List (String × InMemoryQueue)
deriving DecidableEq, Repr

/-- `HashMap::get` for the queues map (first entry with the given name). -/
def lookupQ : List (String × InMemoryQueue) → String → Option InMemoryQueue
  | [], _ => none
  | p :: rest, q => if p.1 = q then some p.2 else lookupQ rest q

/-- `HashMap::get_mut` followed by an update: rewrite the entry named `q`
(no-op when absent, as in the Rust `if let Some(queue_map) = ...`). -/
def updateQ (l : List (String × InMemoryQueue)) (q : String)
    (f : InMemoryQueue → InMemoryQueue) : List (String × InMemoryQueue) :=
  l.map (fun p => if p.1 = q then (p.1, f p.2) else p)

/-- The entries currently stored under queue `q` (empty when the map has no
entry for `q`). -/
def memEntries (s : InMemoryStorage) (q : String) : InMemoryQueue :=
  (lookupQ s.queues q).getD []

/-- Well-formedness of an `InMemoryStorage` value, as established by
`InMemoryStorage::new` (storage.rs lines 248-263): queue names are distinct
(`HashMap` keys), every queue satisfies the `BTreeMap` sortedness invariant,
and every allow-listed queue has an entry in the map (`new` inserts one empty
`BTreeMap` per configured queue). -/
def MemWf (s : InMemoryStorage) : Prop :=
  (s.queues.map Prod.fst).Nodup ∧ (∀ p ∈ s.queues, SortedQ p.2) ∧
  ∀ q ∈ s.allowed_queues, (lookupQ s.queues q).isSome = true

instance (s : InMemoryStorage) : Decidable (MemWf s) := by
  unfold MemWf
  exact inferInstance

/-- `InMemoryStorage::put_item` (storage.rs lines 266-276): reject queues not
in the allow-list, otherwise insert the item's key/message pair into the
queue's `BTreeMap` (overwriting an equal key). -/
def InMemoryStorage.put_item (s : InMemoryStorage) (q : String) (item : QueueItem) :
    Except StorageError Unit × InMemoryStorage :=
  if q ∈ s.allowed_queues then
    (.ok (), { s with
      queues := updateQ s.queues q (btreeInsert (itemKey item) item.message) })
  else (.error (.QueueNotFound q), s)

/-- `InMemoryStorage::get_item` (storage.rs lines 278-292): reject queues not
in the allow-list, otherwise return the first (minimum-key) entry, if any. -/
def InMemoryStorage.get_item (s : InMemoryStorage) (q : String) :
    Except StorageError (Option QueueItem) × InMemoryStorage :=
  if q ∈ s.allowed_queues then
    (.ok (((lookupQ s.queues q).bind List.head?).map
      (fun e => ⟨e.1.1, e.1.2, e.2⟩)), s)
  else (.error (.QueueNotFound q), s)

/-- `InMemoryStorage::delete_item` (storage.rs lines 294-308): reject queues
not in the allow-list, otherwise pop and return the first (minimum-key)
entry, if any. -/
def InMemoryStorage.delete_item (s : InMemoryStorage) (q : String) :
    Except StorageError (Option QueueItem) × InMemoryStorage :=
  if q ∈ s.allowed_queues then
    match (lookupQ s.queues q).bind List.head? with
    | some e =>
      (.ok (some ⟨e.1.1, e.1.2, e.2⟩),
        { s with queues := updateQ s.queues q List.tail })
    | none => (.ok none, s)
  else (.error (.QueueNotFound q), s)

/-- `InMemoryStorage::queue_exists` (storage.rs lines 310-312). -/
def InMemoryStorage.queue_exists (s : InMemoryStorage) (q : String) : Bool :=
  q ∈ s.allowed_queues

/-- `n` successive `delete_item` calls against the same queue, collecting the
results in order. -/
def memDeleteN : Nat → InMemoryStorage → String →
    List (Except StorageError (Option QueueItem)) × InMemoryStorage
  | 0, s, _ => ([], s)
  | n + 1, s, q =>
    let r := s.delete_item q
    let rest := memDeleteN n r.2 q
    (r.1 :: rest.1, rest.2)

theorem lookupQ_updateQ_self (l : List (String × InMemoryQueue)) (q : String)
    (f : InMemoryQueue → InMemoryQueue) :
    lookupQ (updateQ l q f) q = (lookupQ l q).map f := by
  induction l with
  | nil => simp [lookupQ, updateQ]
  | cons p rest ih =>
    by_cases hp : p.1 = q
    · simp [lookupQ, updateQ, hp]
    · simp only [updateQ, List.map_cons, if_neg hp] at ih ⊢
      simp only [lookupQ, if_neg hp]
      exact ih

theorem lookupQ_updateQ_other (l : List (String × InMemoryQueue)) {q q' : String}
    (f : InMemoryQueue → InMemoryQueue) (hne : q' ≠ q) :
    lookupQ (updateQ l q f) q' = lookupQ l q' := by
  induction l with
  | nil => simp [lookupQ, updateQ]
  | cons p rest ih =>
    by_cases hp : p.1 = q
    · have hp' : ¬ (p.1 = q') := by
        rw [hp]
        exact fun h => hne h.symm
      simp only [updateQ, List.map_cons, if_pos hp] at ih ⊢
      simp only [lookupQ, if_neg hp']
      exact ih
    · simp only [updateQ, List.map_cons, if_neg hp] at ih ⊢
      by_cases hq : p.1 = q'
      · simp [lookupQ, hq]
      · simp only [lookupQ, if_neg hq]
        exact ih

theorem updateQ_map_fst (l : List (String × InMemoryQueue)) (q : String)
    (f : InMemoryQueue → InMemoryQueue) :
    (updateQ l q f).map Prod.fst = l.map Prod.fst := by
  induction l with
  | nil => rfl
  | cons p rest ih =>
    by_cases hp : p.1 = q
    · simp [updateQ, hp] at ih ⊢
      exact ih
    · simp [updateQ, hp] at ih ⊢
      exact ih

theorem mem_updateQ {l : List (String × InMemoryQueue)} {q : String}
    {f : InMemoryQueue → InMemoryQueue} {p : String × InMemoryQueue}
    (h : p ∈ updateQ l q f) : p ∈ l ∨ ∃ p' ∈ l, p = (p'.1, f p'.2) := by
  rcases List.mem_map.mp h with ⟨p', hp', heq⟩
  by_cases hc : p'.1 = q
  · right
    rw [if_pos hc] at heq
    exact ⟨p', hp', heq.symm⟩
  · left
    rw [if_neg hc] at heq
    exact heq ▸ hp'

theorem sortedQ_tail {l : InMemoryQueue} (h : SortedQ l) : SortedQ l.tail := by
  cases l with
  | nil => exact h
  | cons e rest =>
    rw [SortedQ, List.pairwise_cons] at h
    exact h.2

theorem lookupQ_mem {l : List (String × InMemoryQueue)} {q : String}
    {v : InMemoryQueue} (h : lookupQ l q = some v) : (q, v) ∈ l := by
  induction l with
  | nil => simp [lookupQ] at h
  | cons p rest ih =>
    rw [lookupQ] at h
    split at h
    · rename_i hp
      simp only [Option.some.injEq] at h
      have hqe : (q, v) = p := by
        obtain ⟨p1, p2⟩ := p
        simp only at hp h
        rw [hp, h]
      rw [hqe]
      exact List.mem_cons_self p rest
    · exact List.mem_cons_of_mem p (ih h)

theorem sortedQ_of_wf {s : InMemoryStorage} (hwf : MemWf s) (q : String) :
    SortedQ (memEntries s q) := by
  rw [memEntries]
  cases hl : lookupQ s.queues q with
  | none => simp [SortedQ]
  | some l =>
    have hp : (q, l) ∈ s.queues := lookupQ_mem hl
    simpa using hwf.2.1 (q, l) hp

theorem sorted_head_min {e : Key × String} {rest : InMemoryQueue}
    (h : SortedQ (e :: rest)) :
    ∀ x ∈ e :: rest, x = e ∨ keyLtb e.1 x.1 = true := by
  intro x hx
  rcases List.mem_cons.mp hx with hx' | hx'
  · exact Or.inl hx'
  · rw [SortedQ, List.pairwise_cons] at h
    exact Or.inr (h.1 x hx')

theorem lookupQ_updateQ_isSome (l : List (String × InMemoryQueue)) (q q' : String)
    (f : InMemoryQueue → InMemoryQueue) :
    (lookupQ (updateQ l q f) q').isSome = (lookupQ l q').isSome := by
  by_cases h : q' = q
  · subst h
    rw [lookupQ_updateQ_self]
    cases lookupQ l q' <;> rfl
  · rw [lookupQ_updateQ_other l f h]

theorem memWf_updateQ {s : InMemoryStorage} (hwf : MemWf s) (q : String)
    (f : InMemoryQueue → InMemoryQueue)
    (hf : ∀ l, SortedQ l → SortedQ (f l)) :
    MemWf { s with queues := updateQ s.queues q f } := by
  refine ⟨?_, ?_, ?_⟩
  · simpa [updateQ_map_fst] using hwf.1
  · intro p hp
    rcases mem_updateQ hp with hp' | ⟨p', hp', heq⟩
    · exact hwf.2.1 p hp'
    · subst heq
      exact hf _ (hwf.2.1 p' hp')
  · intro q' hq'
    rw [lookupQ_updateQ_isSome]
    exact hwf.2.2 q' hq'

theorem memWf_put {s : InMemoryStorage} (hwf : MemWf s) (q : String)
    (item : QueueItem) : MemWf (s.put_item q item).2 := by
  rw [InMemoryStorage.put_item]
  split
  · exact memWf_updateQ hwf q _ (fun l hl => btreeInsert_sorted hl)
  · exact hwf

theorem memWf_delete {s : InMemoryStorage} (hwf : MemWf s) (q : String) :
    MemWf (s.delete_item q).2 := by
  rw [InMemoryStorage.delete_item]
  split
  · split
    · exact memWf_updateQ hwf q _ (fun l hl => sortedQ_tail hl)
    · exact hwf
  · exact hwf

theorem qlookup_head {l : InMemoryQueue} {e : Key × String}
    (h : l.head? = some e) : qlookup l e.1 = some e.2 := by
  cases l with
  | nil => simp at h
  | cons e' rest =>
    simp only [List.head?_cons, Option.some.injEq] at h
    subst h
    simp [qlookup]

/-- Encoding of `datetime_secondary` used by `SqliteStorage::put_item`
(storage.rs lines 146-149): milliseconds, or the `i64::MIN` sentinel for an
absent value. -/
def encodeSecondary : Option Int → Int
  | some d => timestampMillis d
  | none => i64MIN

/-- Decoding used by `SqliteStorage::get_item`/`delete_item` (storage.rs lines
183-190): the sentinel maps back to `None`, anything else through
`from_timestamp_millis`. -/
def decodeSecondary (ms : Int) : Option Int :=
  if ms = i64MIN then none else some (fromTimestampMillis ms)

/-- A row of a per-queue SQLite table (storage.rs lines 82-89): BIGINT
`datetime`, BIGINT `datetime_secondary` (sentinel-encoded), TEXT `message`,
INT2 `valid`.  The `last_modified` column is never read back and is omitted. -/
structure Row where
  datetime : Int
  datetime_secondary : Int
  message : String
  valid : Bool
deriving DecidableEq, Repr

/-- The composite primary key of a row. -/
def rowKey (r : Row) : Int × Int := (r.datetime, r.datetime_secondary)

/-- The row written by `SqliteStorage::put_item` for `item` (storage.rs lines
145-158): millisecond-truncated primary, sentinel-encoded secondary, the
message, and `valid` at its column default 1. -/
def mkRow (item : QueueItem) : Row :=
  ⟨timestampMillis item.datetime, encodeSecondary item.datetime_secondary,
    item.message, true⟩

/-- The `QueueItem` read back from a row by `get_item`/`delete_item`
(storage.rs lines 177-194): `from_timestamp_millis` on the primary and
sentinel-decoding on the secondary. -/
def rowToItem (r : Row) : QueueItem :=
  ⟨fromTimestampMillis r.datetime, decodeSecondary r.datetime_secondary,
    r.message⟩

/-- The encoded composite key under which `put_item` stores `item`. -/
def encKey (item : QueueItem) : Int × Int :=
  (timestampMillis item.datetime, encodeSecondary item.datetime_secondary)

/-- `INSERT OR REPLACE INTO t (datetime, datetime_secondary, message) VALUES
(?1, ?2, ?3)` (storage.rs lines 113-119): any row with the same composite key
is removed and a fresh row — `valid` at its default 1 — is inserted. -/
def tablePut (t : List Row) (item : QueueItem) : List Row :=
  t.filter (fun r => !(rowKey r = encKey item : Bool)) ++ [mkRow item]

/-- `SELECT ... WHERE valid = 1 ORDER BY datetime ASC, datetime_secondary ASC
LIMIT 1`: the valid row with the smallest composite key, if any. -/
def minValidRow : List Row → Option Row
  | [] => none
  | r :: rest =>
    match minValidRow rest with
    | none => if r.valid then some r else none
    | some m =>
      if r.valid then
        if pairLtb (rowKey r) (rowKey m) then some r else some m
      else some m

/-- `UPDATE t SET valid = 0 WHERE datetime = ... AND datetime_secondary = ...`:
mark every row with composite key `k` invalid. -/
def invalidate (t : List Row) (k : Int × Int) : List Row :=
  t.map (fun r => if rowKey r = k then { r with valid := false } else r)

/-- The single-statement dequeue of `SqliteStorage` (storage.rs lines
121-126): both sub-selects read the same snapshot and name the minimum-key
valid row; the `UPDATE` invalidates it and `RETURNING` hands back its
columns.  With no valid row the sub-selects are NULL, no row matches, and the
statement returns nothing. -/
def sqliteDeleteT (t : List Row) : Option Row × List Row :=
  match minValidRow t with
  | none => (none, t)
  | some r => (some r, invalidate t (rowKey r))

/-- Number of valid (active) rows. -/
def validCount (t : List Row) : Nat := (t.filter (fun r => r.valid)).length

/-- Table invariant guaranteed by `PRIMARY KEY (datetime, datetime_secondary)`:
composite keys are distinct across all rows (valid or tombstoned). -/
def WfT (t : List Row) : Prop := (t.map rowKey).Nodup

instance (t : List Row) : Decidable (WfT t) := by
  unfold WfT
  exact inferInstance

/-- `src/storage.rs` `SqliteStorage`: the allow-list (`queues`), the common
domain of the three prepared-SQL maps (`sql_queues`, all three are built
together in `new`), and the database state — one table per queue. -/
structure SqliteStorage where
  queues : List String
  sql_queues : List String
  tables : List (String × List Row)
deriving DecidableEq, Repr

/-- The table backing queue `q` (empty when absent; `new` creates one table
per allow-listed queue). -/
def tableOf (s : SqliteStorage) (q : String) : List Row :=
  ((s.tables.find? (fun p => p.1 = q)).map (·.2)).getD []

/-- Rewrite the table named `q`. -/
def updateT (l : List (String × List Row)) (q : String)
    (f : List Row → List Row) : List (String × List Row) :=
  l.map (fun p => if p.1 = q then (p.1, f p.2) else p)

/-- Well-formedness established by `SqliteStorage::new`: the prepared-SQL
maps cover every allow-listed queue (`new` fills `queues` and all three SQL
maps together), and every table satisfies the primary-key invariant. -/
def SqlWf (s : SqliteStorage) : Prop :=
  (∀ q ∈ s.queues, q ∈ s.sql_queues) ∧ ∀ p ∈ s.tables, WfT p.2

instance (s : SqliteStorage) : Decidable (SqlWf s) := by
  unfold SqlWf
  exact inferInstance

/-- `SqliteStorage::put_item` (storage.rs lines 140-161): allow-list check,
prepared-SQL lookup, then the upsert statement. -/
def SqliteStorage.put_item (s : SqliteStorage) (q : String) (item : QueueItem) :
    Except StorageError Unit × SqliteStorage :=
  if q ∈ s.queues then
    if q ∈ s.sql_queues then
      (.ok (), { s with tables := updateT s.tables q (fun t => tablePut t item) })
    else (.error (.QueueNotFound q), s)
  else (.error (.QueueNotFound q), s)

/-- `SqliteStorage::get_item` (storage.rs lines 163-197): allow-list check,
prepared-SQL lookup, then the single `SELECT`; never mutates. -/
def SqliteStorage.get_item (s : SqliteStorage) (q : String) :
    Except StorageError (Option QueueItem) × SqliteStorage :=
  if q ∈ s.queues then
    if q ∈ s.sql_queues then
      (.ok ((minValidRow (tableOf s q)).map rowToItem), s)
    else (.error (.QueueNotFound q), s)
  else (.error (.QueueNotFound q), s)

/-- `SqliteStorage::delete_item` (storage.rs lines 199-233): allow-list check,
prepared-SQL lookup, then the single atomic select-and-invalidate statement. -/
def SqliteStorage.delete_item (s : SqliteStorage) (q : String) :
    Except StorageError (Option QueueItem) × SqliteStorage :=
  if q ∈ s.queues then
    if q ∈ s.sql_queues then
      let r := sqliteDeleteT (tableOf s q)
      (.ok (r.1.map rowToItem), { s with tables := updateT s.tables q (fun _ => r.2) })
    else (.error (.QueueNotFound q), s)
  else (.error (.QueueNotFound q), s)

/-- `SqliteStorage::queue_exists` (storage.rs lines 235-237). -/
def SqliteStorage.queue_exists (s : SqliteStorage) (q : String) : Bool :=
  q ∈ s.queues

/-- `n` successive dequeue statements against one table, collecting results.
Each `sqliteDeleteT` is one atomic SQL statement, so any concurrent schedule
of `n` `delete_item` calls executes as some such sequence. -/
def deleteN : Nat → List Row → List (Option Row) × List Row
  | 0, t => ([], t)
  | n + 1, t =>
    let r := sqliteDeleteT t
    let rest := deleteN n r.2
    (r.1 :: rest.1, rest.2)

theorem minValidRow_mem {t : List Row} {r : Row} (h : minValidRow t = some r) :
    r ∈ t ∧ r.valid = true := by
  induction t generalizing r with
  | nil => simp [minValidRow] at h
  | cons x rest ih =>
    rw [minValidRow] at h
    split at h
    · split at h
      · rename_i hv
        obtain rfl := Option.some.inj h
        exact ⟨List.mem_cons_self x rest, hv⟩
      · exact absurd h (by simp)
    · rename_i m hm
      split at h
      · rename_i hv
        split at h
        · obtain rfl := Option.some.inj h
          exact ⟨List.mem_cons_self x rest, hv⟩
        · obtain rfl := Option.some.inj h
          obtain ⟨h1, h2⟩ := ih hm
          exact ⟨List.mem_cons_of_mem x h1, h2⟩
      · obtain rfl := Option.some.inj h
        obtain ⟨h1, h2⟩ := ih hm
        exact ⟨List.mem_cons_of_mem x h1, h2⟩

theorem minValidRow_none_iff {t : List Row} :
    minValidRow t = none ↔ ∀ r ∈ t, r.valid = false := by
  induction t with
  | nil => simp [minValidRow]
  | cons x rest ih =>
    constructor
    · intro h r hr
      rw [minValidRow] at h
      split at h
      · rename_i hm
        rcases List.mem_cons.mp hr with hr' | hr'
        · subst hr'
          split at h
          · exact absurd h (by simp)
          · rename_i hv
            simpa using hv
        · exact ih.mp hm r hr'
      · rename_i m hm
        split at h <;> [skip; exact absurd h (by simp)]
        split at h <;> exact absurd h (by simp)
    · intro h
      rw [minValidRow]
      split
      · rw [if_neg]
        simp [h x (List.mem_cons_self x rest)]
      · rename_i m hm
        have hmv := minValidRow_mem hm
        exact absurd (h m (List.mem_cons_of_mem x hmv.1)) (by simp [hmv.2])

theorem minValidRow_min {t : List Row} {r : Row} (h : minValidRow t = some r) :
    ∀ x ∈ t, x.valid = true → pairLtb (rowKey x) (rowKey r) = false := by
  induction t generalizing r with
  | nil => simp [minValidRow] at h
  | cons y rest ih =>
    intro x hx hxv
    rw [minValidRow] at h
    split at h
    · rename_i hm
      have hrest : ∀ z ∈ rest, z.valid = false := minValidRow_none_iff.mp hm
      split at h
      · obtain rfl := Option.some.inj h
        rcases List.mem_cons.mp hx with hx' | hx'
        · subst hx'
          exact pairLtb_irrefl _
        · exact absurd hxv (by simp [hrest x hx'])
      · exact absurd h (by simp)
    · rename_i m hm
      split at h
      · rename_i hv
        split at h
        · rename_i hlt
          obtain rfl := Option.some.inj h
          rcases List.mem_cons.mp hx with hx' | hx'
          · subst hx'
            exact pairLtb_irrefl _
          · have hxm := ih hm x hx' hxv
            by_cases hc : pairLtb (rowKey x) (rowKey y) = true
            · have h2 := pairLtb_trans hc hlt
              rw [hxm] at h2
              exact absurd h2 (by simp)
            · simpa using hc
        · rename_i hnlt
          obtain rfl := Option.some.inj h
          rcases List.mem_cons.mp hx with hx' | hx'
          · subst hx'
            simpa using hnlt
          · exact ih hm x hx' hxv
      · rename_i hnv
        obtain rfl := Option.some.inj h
        rcases List.mem_cons.mp hx with hx' | hx'
        · subst hx'
          exact absurd hxv (by simpa using hnv)
        · exact ih hm x hx' hxv

theorem invalidate_map_rowKey (t : List Row) (k : Int × Int) :
    (invalidate t k).map rowKey = t.map rowKey := by
  induction t with
  | nil => rfl
  | cons a rest ih =>
    by_cases ha : rowKey a = k
    · simp only [invalidate, List.map_cons, if_pos ha] at ih ⊢
      rw [ih]
      have : rowKey { a with valid := false } = rowKey a := rfl
      rw [this]
    · simp only [invalidate, List.map_cons, if_neg ha] at ih ⊢
      rw [ih]

theorem mem_invalidate_valid {t : List Row} {k : Int × Int} {x : Row}
    (h : x ∈ invalidate t k) (hv : x.valid = true) : x ∈ t := by
  induction t with
  | nil => simpa [invalidate] using h
  | cons a rest ih =>
    simp only [invalidate, List.map_cons] at h
    rcases List.mem_cons.mp h with h' | h'
    · by_cases ha : rowKey a = k
      · rw [if_pos ha] at h'
        subst h'
        simp at hv
      · rw [if_neg ha] at h'
        exact h' ▸ List.mem_cons_self a rest
    · exact List.mem_cons_of_mem a (ih h')

theorem invalidate_key_invalid {t : List Row} {k : Int × Int} {x : Row}
    (h : x ∈ invalidate t k) (hk : rowKey x = k) : x.valid = false := by
  induction t with
  | nil => simpa [invalidate] using h
  | cons a rest ih =>
    simp only [invalidate, List.map_cons] at h
    rcases List.mem_cons.mp h with h' | h'
    · by_cases ha : rowKey a = k
      · rw [if_pos ha] at h'
        subst h'
        rfl
      · rw [if_neg ha] at h'
        subst h'
        exact absurd hk ha
    · exact ih h'

theorem noKey_invalidate {t : List Row} {k : Int × Int}
    (h : ∀ x ∈ t, rowKey x ≠ k) : invalidate t k = t := by
  induction t with
  | nil => rfl
  | cons a rest ih =>
    rw [invalidate, List.map_cons, if_neg (h a (List.mem_cons_self a rest))]
    have hrest := ih (fun x hx => h x (List.mem_cons_of_mem a hx))
    rw [invalidate] at hrest
    rw [hrest]

theorem validCount_cons (a : Row) (t : List Row) :
    validCount (a :: t) = (if a.valid then 1 else 0) + validCount t := by
  by_cases ha : a.valid
  · simp [validCount, List.filter_cons, ha, Nat.add_comm]
  · simp [validCount, List.filter_cons, ha]

theorem validCount_pos_of_mem {t : List Row} {r : Row} (hr : r ∈ t)
    (hv : r.valid = true) : 0 < validCount t := by
  have hmem : r ∈ t.filter (fun r => r.valid) :=
    List.mem_filter.mpr ⟨hr, by simp [hv]⟩
  exact List.length_pos.mpr (List.ne_nil_of_mem hmem)

theorem validCount_eq_zero {t : List Row} (h : ∀ r ∈ t, r.valid = false) :
    validCount t = 0 := by
  induction t with
  | nil => rfl
  | cons a rest ih =>
    rw [validCount_cons, if_neg (by simp [h a (List.mem_cons_self a rest)])]
    have hrest := ih (fun r hr => h r (List.mem_cons_of_mem a hr))
    omega

theorem invalidate_validCount {t : List Row} {r : Row} (hwf : WfT t)
    (hr : r ∈ t) (hv : r.valid = true) :
    validCount (invalidate t (rowKey r)) = validCount t - 1 := by
  induction t with
  | nil => simp at hr
  | cons a rest ih =>
    rw [WfT, List.map_cons, List.nodup_cons] at hwf
    obtain ⟨hnk, hwf'⟩ := hwf
    by_cases ha : rowKey a = rowKey r
    · have hra : r = a := by
        rcases List.mem_cons.mp hr with h' | h'
        · exact h'
        · exact absurd (ha ▸ List.mem_map_of_mem rowKey h') hnk
      subst hra
      have hnone : ∀ x ∈ rest, rowKey x ≠ rowKey r :=
        fun x hx hk => hnk (hk ▸ List.mem_map_of_mem rowKey hx)
      simp only [invalidate, List.map_cons, if_pos ha]
      have hrw : List.map
          (fun x => if rowKey x = rowKey r then { x with valid := false } else x)
          rest = rest := noKey_invalidate hnone
      rw [hrw, validCount_cons, validCount_cons, if_pos hv, if_neg (by simp)]
      omega
    · have hr' : r ∈ rest := by
        rcases List.mem_cons.mp hr with h' | h'
        · exact absurd (by rw [h']) ha
        · exact h'
      have hpos : 0 < validCount rest := validCount_pos_of_mem hr' hv
      have hrec := ih hwf' hr'
      simp only [invalidate, List.map_cons, if_neg ha]
      rw [validCount_cons, validCount_cons]
      rw [invalidate] at hrec
      rw [hrec]
      split <;> omega

theorem filterMap_id_cons_none {α : Type} (l : List (Option α)) :
    (none :: l).filterMap id = l.filterMap id := by
  simp

theorem filterMap_id_cons_some {α : Type} (a : α) (l : List (Option α)) :
    (some a :: l).filterMap id = a :: l.filterMap id := by
  simp

theorem wfT_invalidate {t : List Row} (hwf : WfT t) (k : Int × Int) :
    WfT (invalidate t k) := by
  rw [WfT, invalidate_map_rowKey]
  exact hwf

/-- Specification of `n` successive single-statement dequeues: exactly
`min n (validCount t)` items come back, their keys are pairwise distinct, and
each was an active row of the starting table. -/
theorem deleteN_spec (N : Nat) (t : List Row) (hwf : WfT t) :
    (((deleteN N t).1.filterMap id).length = min N (validCount t)) ∧
    ((((deleteN N t).1.filterMap id).map rowKey).Nodup) ∧
    (∀ r ∈ (deleteN N t).1.filterMap id, r ∈ t ∧ r.valid = true) := by
  induction N generalizing t with
  | zero => simp [deleteN]
  | succ n ih =>
    cases hm : minValidRow t with
    | none =>
      have hd : sqliteDeleteT t = (none, t) := by
        rw [sqliteDeleteT, hm]
      have hvc : validCount t = 0 :=
        validCount_eq_zero (minValidRow_none_iff.mp hm)
      obtain ⟨ih1, ih2, ih3⟩ := ih t hwf
      rw [deleteN]
      simp only [hd]
      refine ⟨?_, ?_, ?_⟩
      · rw [filterMap_id_cons_none, ih1, hvc]
        omega
      · rw [filterMap_id_cons_none]
        exact ih2
      · rw [filterMap_id_cons_none]
        exact ih3
    | some r =>
      have hd : sqliteDeleteT t = (some r, invalidate t (rowKey r)) := by
        rw [sqliteDeleteT, hm]
      obtain ⟨hrmem, hrv⟩ := minValidRow_mem hm
      have hwf' := wfT_invalidate hwf (rowKey r)
      obtain ⟨ih1, ih2, ih3⟩ := ih (invalidate t (rowKey r)) hwf'
      have hvc := invalidate_validCount hwf hrmem hrv
      have hpos := validCount_pos_of_mem hrmem hrv
      have hfresh : ∀ x ∈ (deleteN n (invalidate t (rowKey r))).1.filterMap id,
          rowKey x ≠ rowKey r := by
        intro x hx hk
        obtain ⟨hxm, hxv⟩ := ih3 x hx
        rw [invalidate_key_invalid hxm hk] at hxv
        exact absurd hxv (by simp)
      rw [deleteN]
      simp only [hd]
      refine ⟨?_, ?_, ?_⟩
      · rw [filterMap_id_cons_some, List.length_cons, ih1, hvc]
        omega
      · rw [filterMap_id_cons_some, List.map_cons]
        rw [List.nodup_cons]
        refine ⟨?_, ih2⟩
        intro hin
        rcases List.mem_map.mp hin with ⟨x, hx, hk⟩
        exact hfresh x hx hk
      · rw [filterMap_id_cons_some]
        intro x hx
        rcases List.mem_cons.mp hx with hx | hx
        · subst hx
          exact ⟨hrmem, hrv⟩
        · obtain ⟨hxm, hxv⟩ := ih3 x hx
          exact ⟨mem_invalidate_valid hxm hxv, hxv⟩

theorem fromMillis_timestampMillis (t : Int) :
    fromTimestampMillis (timestampMillis t) = t - t % 1000000 := by
  rw [timestampMillis, fromTimestampMillis, Int.fdiv_eq_ediv _ (by norm_num)]
  omega

/-- A row of the legacy `AppDb` per-queue table (appdb.rs lines 31-38): TEXT
rfc3339 `datetime`/`datetime_secondary` and the `valid` flag.  The rfc3339
codec of chrono is injective and order-preserving (and SQLite sorts NULL
first under ASC), so the TEXT key columns are abstracted to the `Key` their
strings denote. -/
structure HRow where
  key : Key
  message : String
  valid : Bool
deriving DecidableEq, Repr

/-- Outcome of the legacy HTTP `put_item` (handlers.rs lines 72-115). -/
inductive HPutResult where
  | conflict
  | inserted (t : List HRow)
deriving DecidableEq, Repr

/-- Legacy `put_item` over `AppDb` (handlers.rs lines 72-115): `SELECT
COUNT(*) ... WHERE datetime = ?1 AND datetime_secondary IS ?2`, then a 409
Conflict (`ItemAlreadyExists`) when the count is positive, otherwise a plain
`INSERT` of the new row.  The count ignores the `valid` flag. -/
def handlersPut (t : List HRow) (item : QueueItem) : HPutResult :=
  if 0 < (t.filter (fun r => r.key = itemKey item)).length then .conflict
  else .inserted (t ++ [⟨itemKey item, item.message, true⟩])

/-- Step 1 of the legacy `delete_item` (handlers.rs lines 247-259): its own
`SELECT ... WHERE valid = 1 ORDER BY datetime ASC, datetime_secondary ASC
LIMIT 1` — a statement separate from the update. -/
def handlersSelectMin : List HRow → Option HRow
  | [] => none
  | r :: rest =>
    match handlersSelectMin rest with
    | none => if r.valid then some r else none
    | some m =>
      if r.valid then
        if keyLtb r.key m.key then some r else some m
      else some m

/-- Step 2 of the legacy `delete_item` (handlers.rs lines 272-283): a second,
separate statement `UPDATE ... SET valid = 0 WHERE datetime = ?1 AND
datetime_secondary IS ?2` whose WHERE clause does not test `valid`; the
handler checks the returned rows-changed count and answers 200 with the
selected item whenever it is positive. -/
def handlersUpdateInvalid (t : List HRow) (k : Key) : List HRow × Nat :=
  (t.map (fun r => if r.key = k then { r with valid := false } else r),
   (t.filter (fun r => r.key = k)).length)

/-- Rust `char::is_ascii_alphanumeric`: ASCII digits and letters. -/
def char_is_ascii_alphanumeric (c : Char) : Bool :=
  (decide ('0' ≤ c) && decide (c ≤ '9')) ||
  (decide ('A' ≤ c) && decide (c ≤ 'Z')) ||
  (decide ('a' ≤ c) && decide (c ≤ 'z'))

/-- `src/utils.rs` `sanitize_queue_name` (lines 25-31): reject the empty
string and any character outside `[A-Za-z0-9_]`, otherwise return the table
name `queue_{queue}`. -/
def sanitize_queue_name (queue : String) : Option String :=
  if queue.isEmpty || !(queue.data.all (fun c => char_is_ascii_alphanumeric c || c == '_'))
  then none
  else some ("queue_" ++ queue)

/-- The JSON object produced for a `QueueItem` by serde (item.rs lines
10-16), at the level of field presence: `datetime` always present,
`datetime_secondary` skipped when `None`, `message` skipped when empty
(`skip_serializing_if`) and defaulted to `""` on deserialization
(`#[serde(default)]`).  chrono's rfc3339 serde codec for the timestamp
leaves round-trips exactly, so timestamps are carried as their underlying
values. -/
structure JsonItem where
  datetime : Int
  datetime_secondary : Option Int
  message : Option String
deriving DecidableEq, Repr

/-- `QueueItem::to_json_string` (item.rs lines 20-22), at JSON-object level. -/
def QueueItem.to_json (i : QueueItem) : JsonItem :=
  ⟨i.datetime, i.datetime_secondary, if i.message = "" then none else some i.message⟩

/-- `QueueItem::from_json_string` (item.rs lines 25-27) applied to a JSON
object with the required `datetime` field present. -/
def QueueItem.from_json (j : JsonItem) : QueueItem :=
  ⟨j.datetime, j.datetime_secondary, j.message.getD ""⟩

theorem memGet_state (s : InMemoryStorage) (q : String) :
    (s.get_item q).2 = s := by
  rw [InMemoryStorage.get_item]
  split <;> rfl

theorem memGet_some {s : InMemoryStorage} {q : String} {it : QueueItem}
    (hwf : MemWf s) (h : (s.get_item q).1 = .ok (some it)) :
    (itemKey it, it.message) ∈ memEntries s q ∧
    ∀ e ∈ memEntries s q, e = (itemKey it, it.message) ∨ keyLtb (itemKey it) e.1 = true := by
  rw [InMemoryStorage.get_item] at h
  split at h
  · simp only [Except.ok.injEq] at h
    cases hl : lookupQ s.queues q with
    | none => rw [hl] at h; simp at h
    | some l =>
      rw [hl] at h
      simp only [Option.some_bind, Option.map_eq_some'] at h
      obtain ⟨e, he, heq⟩ := h
      cases l with
      | nil => simp at he
      | cons e0 rest =>
        simp only [List.head?_cons, Option.some.injEq] at he
        subst he
        have hmem : memEntries s q = e0 :: rest := by
          rw [memEntries, hl]
          rfl
        have hit : (itemKey it, it.message) = e0 := by
          rw [← heq]
          rfl
        have hit1 : itemKey it = e0.1 := by
          rw [← hit]
        have hsorted : SortedQ (memEntries s q) := sortedQ_of_wf hwf q
        rw [hmem] at hsorted ⊢
        constructor
        · rw [hit]
          exact List.mem_cons_self e0 rest
        · intro x hx
          rw [hit, hit1]
          exact sorted_head_min hsorted x hx
  · simp at h

theorem memGet_none {s : InMemoryStorage} {q : String}
    (h : (s.get_item q).1 = .ok none) : memEntries s q = [] := by
  rw [InMemoryStorage.get_item] at h
  split at h
  · simp only [Except.ok.injEq] at h
    cases hl : lookupQ s.queues q with
    | none => rw [memEntries, hl]; rfl
    | some l =>
      rw [hl] at h
      simp only [Option.some_bind] at h
      rw [memEntries, hl]
      cases l with
      | nil => rfl
      | cons e0 rest => simp at h
  · simp at h

theorem memGet_of_empty {s : InMemoryStorage} {q : String}
    (hq : q ∈ s.allowed_queues) (h : memEntries s q = []) :
    (s.get_item q).1 = .ok none := by
  rw [InMemoryStorage.get_item, if_pos hq]
  rw [memEntries] at h
  cases hl : lookupQ s.queues q with
  | none => rfl
  | some l =>
    rw [hl] at h
    simp only [Option.getD_some] at h
    subst h
    rfl

theorem memDelete_empty {s : InMemoryStorage} {q : String}
    (hq : q ∈ s.allowed_queues) (h : memEntries s q = []) :
    s.delete_item q = (.ok none, s) := by
  rw [InMemoryStorage.delete_item, if_pos hq]
  rw [memEntries] at h
  cases hl : lookupQ s.queues q with
  | none => rfl
  | some l =>
    rw [hl] at h
    simp only [Option.getD_some] at h
    subst h
    rfl

theorem memDeleteN_empty {s : InMemoryStorage} {q : String}
    (hq : q ∈ s.allowed_queues) (h : memEntries s q = []) (n : Nat) :
    memDeleteN n s q = (List.replicate n (Except.ok none), s) := by
  induction n with
  | zero => rfl
  | succ m ih =>
    rw [memDeleteN]
    simp only [memDelete_empty hq h, ih, List.replicate_succ]

theorem memDelete_nonempty {s : InMemoryStorage} {q : String} {k : Key}
    {v : String} {rest : InMemoryQueue}
    (hq : q ∈ s.allowed_queues) (h : memEntries s q = (k, v) :: rest) :
    (s.delete_item q).1 = .ok (some ⟨k.1, k.2, v⟩) ∧
    memEntries (s.delete_item q).2 q = rest ∧
    (∀ q', q' ≠ q → memEntries (s.delete_item q).2 q' = memEntries s q') := by
  rw [memEntries] at h
  cases hl : lookupQ s.queues q with
  | none => rw [hl] at h; simp at h
  | some l =>
    rw [hl] at h
    simp only [Option.getD_some] at h
    subst h
    rw [InMemoryStorage.delete_item, if_pos hq, hl]
    refine ⟨rfl, ?_, ?_⟩
    · rw [memEntries]
      show (lookupQ (updateQ s.queues q List.tail) q).getD [] = rest
      rw [lookupQ_updateQ_self, hl]
      rfl
    · intro q' hq'
      rw [memEntries, memEntries]
      show (lookupQ (updateQ s.queues q List.tail) q').getD [] =
        (lookupQ s.queues q').getD []
      rw [lookupQ_updateQ_other _ _ hq']

theorem memGet_head {s : InMemoryStorage} {q : String} {it : QueueItem}
    (h : (s.get_item q).1 = .ok (some it)) :
    (memEntries s q).head? = some (itemKey it, it.message) := by
  rw [InMemoryStorage.get_item] at h
  split at h
  · simp only [Except.ok.injEq] at h
    cases hl : lookupQ s.queues q with
    | none => rw [hl] at h; simp at h
    | some l =>
      rw [hl] at h
      simp only [Option.some_bind, Option.map_eq_some'] at h
      obtain ⟨e, he, heq⟩ := h
      have hkey : (itemKey it, it.message) = e := by
        rw [← heq]
        rfl
      rw [memEntries, hl, Option.getD_some, he, hkey]
  · simp at h

theorem memDelete_head {s : InMemoryStorage} {q : String} {it : QueueItem}
    (h : (s.delete_item q).1 = .ok (some it)) :
    (memEntries s q).head? = some (itemKey it, it.message) := by
  rw [InMemoryStorage.delete_item] at h
  split at h
  · cases hl : lookupQ s.queues q with
    | none =>
      rw [hl] at h
      simp at h
    | some l =>
      rw [hl] at h
      simp only [Option.some_bind] at h
      cases hh : l.head? with
      | none => rw [hh] at h; simp at h
      | some e =>
        rw [hh] at h
        simp only [Except.ok.injEq, Option.some.injEq] at h
        rw [memEntries, hl, Option.getD_some, hh, ← h]
        rfl
  · simp at h

theorem memPut_ok {s : InMemoryStorage} {q : String} (item : QueueItem)
    (hq : q ∈ s.allowed_queues) : (s.put_item q item).1 = .ok () := by
  rw [InMemoryStorage.put_item, if_pos hq]

theorem memPut_entries {s : InMemoryStorage} {q : String} {l : InMemoryQueue}
    (item : QueueItem) (hl : lookupQ s.queues q = some l)
    (hq : q ∈ s.allowed_queues) :
    memEntries (s.put_item q item).2 q = btreeInsert (itemKey item) item.message l := by
  rw [InMemoryStorage.put_item, if_pos hq]
  show (lookupQ (updateQ s.queues q (btreeInsert (itemKey item) item.message)) q).getD [] = _
  rw [lookupQ_updateQ_self, hl]
  rfl

theorem memPut_entries_other {s : InMemoryStorage} {q q' : String}
    (item : QueueItem) (hq : q ∈ s.allowed_queues) (hne : q' ≠ q) :
    memEntries (s.put_item q item).2 q' = memEntries s q' := by
  rw [InMemoryStorage.put_item, if_pos hq]
  show (lookupQ (updateQ s.queues q (btreeInsert (itemKey item) item.message)) q').getD [] = _
  rw [lookupQ_updateQ_other _ _ hne]
  rfl

theorem mem_invalidate_self {t : List Row} {r : Row} (hr : r ∈ t) :
    { r with valid := false } ∈ invalidate t (rowKey r) := by
  refine List.mem_map.mpr ⟨r, hr, ?_⟩
  show (if rowKey r = rowKey r then { r with valid := false } else r) =
    { r with valid := false }
  rw [if_pos rfl]

theorem mem_invalidate_other {t : List Row} {r : Row} {k : Int × Int}
    (hr : r ∈ t) (hk : rowKey r ≠ k) : r ∈ invalidate t k := by
  refine List.mem_map.mpr ⟨r, hr, ?_⟩
  show (if rowKey r = k then { r with valid := false } else r) = r
  rw [if_neg hk]

theorem deleteN_none {t : List Row} (hm : minValidRow t = none) (n : Nat) :
    deleteN n t = (List.replicate n none, t) := by
  have hd : sqliteDeleteT t = (none, t) := by
    rw [sqliteDeleteT, hm]
  induction n with
  | zero => rfl
  | succ m ih =>
    rw [deleteN]
    simp only [hd, ih, List.replicate_succ]

theorem tablePut_filter_key (t : List Row) (item : QueueItem) :
    (tablePut t item).filter (fun r => rowKey r = encKey item) = [mkRow item] := by
  rw [tablePut, List.filter_append]
  have h1 : (t.filter (fun r => !(rowKey r = encKey item : Bool))).filter
      (fun r => (rowKey r = encKey item : Bool)) = [] := by
    rw [List.filter_eq_nil_iff]
    intro x hx
    have h2 := (List.mem_filter.mp hx).2
    simp only [Bool.not_eq_true', decide_eq_false_iff_not] at h2
    simpa using h2
  have h3 : List.filter (fun r => (rowKey r = encKey item : Bool)) [mkRow item] =
      [mkRow item] := by
    have : rowKey (mkRow item) = encKey item := rfl
    simp [List.filter, this]
  rw [h1, h3]
  rfl

theorem minValid_tablePut_at_key {t : List Row} {item : QueueItem} {m : Row}
    (hm : minValidRow (tablePut t item) = some m)
    (hk : rowKey m = encKey item) : m = mkRow item := by
  obtain ⟨hmem, _⟩ := minValidRow_mem hm
  have h : m ∈ (tablePut t item).filter (fun r => (rowKey r = encKey item : Bool)) :=
    List.mem_filter.mpr ⟨hmem, by simp [hk]⟩
  rw [tablePut_filter_key] at h
  simpa using h

/-- Concrete well-formed in-memory store used by witnesses. -/
def mem0 : InMemoryStorage :=
  ⟨["alpha"], [("alpha", [((0, none), "x"), ((1, some 2), "y")])]⟩

/-- Concrete in-memory store with one empty queue, used by witnesses. -/
def memE : InMemoryStorage := ⟨["beta"], [("beta", [])]⟩

/-- Concrete well-formed SQLite store used by witnesses. -/
def sql0 : SqliteStorage :=
  ⟨["alpha"], ["alpha"], [("alpha", [⟨0, i64MIN, "x", true⟩, ⟨1, 2, "y", false⟩])]⟩

/-- The table of `sql0`, used directly in table-level witnesses. -/
def sqlT : List Row := [⟨0, i64MIN, "x", true⟩, ⟨1, 2, "y", false⟩]

/-- Concrete item used by witnesses. -/
def item0 : QueueItem := ⟨0, none, "m"⟩

/-- **C1**: for every queue state, `get` is a pure peek of the minimum: it
returns the active item whose key `(primary, secondary)` is smallest under
ascending-primary, ascending-secondary, absent-secondary-first order (`keyLtb`
in memory, `pairLtb` on the encoded columns in SQLite), or `None` when the
queue has no active items, and it leaves the state unchanged. -/
theorem get_item_pure_min_peek :
    (∀ (s : InMemoryStorage) (q : String), MemWf s →
      ((s.get_item q).2 = s ∧
       (∀ it, (s.get_item q).1 = .ok (some it) →
         (itemKey it, it.message) ∈ memEntries s q ∧
         ∀ e ∈ memEntries s q, e = (itemKey it, it.message) ∨
           keyLtb (itemKey it) e.1 = true) ∧
       ((s.get_item q).1 = .ok none → memEntries s q = []) ∧
       (q ∈ s.allowed_queues → memEntries s q = [] →
         (s.get_item q).1 = .ok none))) ∧
    (∀ (s : SqliteStorage) (q : String), (s.get_item q).2 = s) ∧
    (∀ (s : SqliteStorage) (q : String), q ∈ s.queues → q ∈ s.sql_queues →
      (s.get_item q).1 = .ok ((minValidRow (tableOf s q)).map rowToItem)) ∧
    (∀ t : List Row,
      (minValidRow t = none ↔ ∀ r ∈ t, r.valid = false) ∧
      (∀ r, minValidRow t = some r → r ∈ t ∧ r.valid = true ∧
        ∀ x ∈ t, x.valid = true → pairLtb (rowKey x) (rowKey r) = false)) := by
  refine ⟨?_, ?_, ?_, ?_⟩
  · intro s q hwf
    exact ⟨memGet_state s q,
      fun it hit => memGet_some hwf hit,
      fun h => memGet_none h,
      fun hq h => memGet_of_empty hq h⟩
  · intro s q
    rw [SqliteStorage.get_item]
    split
    · split <;> rfl
    · rfl
  · intro s q h1 h2
    rw [SqliteStorage.get_item, if_pos h1, if_pos h2]
  · intro t
    refine ⟨minValidRow_none_iff, ?_⟩
    intro r hr
    obtain ⟨h1, h2⟩ := minValidRow_mem hr
    exact ⟨h1, h2, minValidRow_min hr⟩

theorem get_item_pure_min_peek_witness :
    MemWf mem0 ∧
    (mem0.get_item "alpha").2 = mem0 ∧
    ("alpha" ∈ sql0.queues ∧ "alpha" ∈ sql0.sql_queues) ∧
    (sql0.get_item "alpha").1 = .ok ((minValidRow (tableOf sql0 "alpha")).map rowToItem) :=
  ⟨by decide,
   (get_item_pure_min_peek.1 mem0 "alpha" (by decide)).1,
   ⟨by decide, by decide⟩,
   get_item_pure_min_peek.2.2.1 sql0 "alpha" (by decide) (by decide)⟩

/-- **C2**: for every non-empty queue, `delete` removes and returns exactly
the current minimum-key item and no other item; on an empty queue it returns
empty without error, leaves the state unchanged, and does so under any number
of repetitions. -/
theorem delete_item_removes_min :
    (∀ (s : InMemoryStorage) (q : String) (k : Key) (v : String)
      (rest : InMemoryQueue), MemWf s → q ∈ s.allowed_queues →
      memEntries s q = (k, v) :: rest →
      ((s.delete_item q).1 = .ok (some ⟨k.1, k.2, v⟩) ∧
       memEntries (s.delete_item q).2 q = rest ∧
       (∀ e ∈ memEntries s q, e = (k, v) ∨ keyLtb k e.1 = true) ∧
       (∀ q', q' ≠ q → memEntries (s.delete_item q).2 q' = memEntries s q'))) ∧
    (∀ (s : InMemoryStorage) (q : String) (n : Nat), q ∈ s.allowed_queues →
      memEntries s q = [] →
      memDeleteN n s q = (List.replicate n (.ok none), s)) ∧
    (∀ (t : List Row) (r : Row), minValidRow t = some r →
      (sqliteDeleteT t = (some r, invalidate t (rowKey r)) ∧
       { r with valid := false } ∈ invalidate t (rowKey r) ∧
       (∀ x ∈ t, rowKey x ≠ rowKey r → x ∈ invalidate t (rowKey r)) ∧
       (∀ x ∈ t, x.valid = true → pairLtb (rowKey x) (rowKey r) = false))) ∧
    (∀ (t : List Row) (n : Nat), minValidRow t = none →
      deleteN n t = (List.replicate n none, t)) := by
  refine ⟨?_, ?_, ?_, ?_⟩
  · intro s q k v rest hwf hq hmem
    obtain ⟨h1, h2, h3⟩ := memDelete_nonempty hq hmem
    refine ⟨h1, h2, ?_, h3⟩
    have hsorted : SortedQ (memEntries s q) := sortedQ_of_wf hwf q
    rw [hmem] at hsorted
    intro e he
    rw [hmem] at he
    exact sorted_head_min hsorted e he
  · intro s q n hq h
    exact memDeleteN_empty hq h n
  · intro t r hm
    refine ⟨by rw [sqliteDeleteT, hm], ?_, ?_, minValidRow_min hm⟩
    · exact mem_invalidate_self (minValidRow_mem hm).1
    · intro x hx hk
      exact mem_invalidate_other hx hk
  · intro t n hm
    exact deleteN_none hm n

theorem delete_item_removes_min_witness :
    ((mem0.delete_item "alpha").1 = .ok (some ⟨0, none, "x"⟩)) ∧
    (memDeleteN 2 memE "beta" = (List.replicate 2 (.ok none), memE)) ∧
    (sqliteDeleteT sqlT = (some ⟨0, i64MIN, "x", true⟩,
      invalidate sqlT (0, i64MIN))) ∧
    (deleteN 2 [⟨0, 0, "t", false⟩] = (List.replicate 2 none,
      [⟨0, 0, "t", false⟩])) :=
  ⟨(delete_item_removes_min.1 mem0 "alpha" (0, none) "x" [((1, some 2), "y")]
      (by decide) (by decide) (by decide)).1,
   delete_item_removes_min.2.1 memE "beta" 2 (by decide) (by decide),
   (delete_item_removes_min.2.2.1 sqlT ⟨0, i64MIN, "x", true⟩ (by decide)).1,
   delete_item_removes_min.2.2.2 [⟨0, 0, "t", false⟩] 2 (by decide)⟩

/-- Legacy-handler table holding one row whose key collides with `itemC`. -/
def hT1 : List HRow := [⟨(0, none), "old", true⟩]

/-- Item whose key `(0, none)` already exists in `hT1`. -/
def itemC : QueueItem := ⟨0, none, "new"⟩

/-- **C3** (storage core side): on both `Storage` backends a `put` whose key
already exists succeeds and overwrites the payload, and an immediately
following `get`/`delete` observes only the new payload; the legacy HTTP
handler (`handlers.rs` lines 72-100), by contrast, answers 409 Conflict on
the same input — the final conjunct evaluates it at that failing input. -/
theorem put_upsert_semantics :
    (∀ (s : InMemoryStorage) (q : String) (item : QueueItem) (l : InMemoryQueue),
      MemWf s → q ∈ s.allowed_queues → lookupQ s.queues q = some l →
      ((s.put_item q item).1 = .ok () ∧
       qlookup (memEntries (s.put_item q item).2 q) (itemKey item) =
         some item.message ∧
       (∀ k', k' ≠ itemKey item →
         qlookup (memEntries (s.put_item q item).2 q) k' =
           qlookup (memEntries s q) k') ∧
       (∀ it', ((s.put_item q item).2.get_item q).1 = .ok (some it') →
         itemKey it' = itemKey item → it'.message = item.message) ∧
       (∀ it', ((s.put_item q item).2.delete_item q).1 = .ok (some it') →
         itemKey it' = itemKey item → it'.message = item.message))) ∧
    (∀ (t : List Row) (item : QueueItem),
      ((tablePut t item).filter (fun r => rowKey r = encKey item) = [mkRow item] ∧
       (∀ m, minValidRow (tablePut t item) = some m → rowKey m = encKey item →
         m = mkRow item))) ∧
    (∀ (s : SqliteStorage) (q : String) (item : QueueItem),
      q ∈ s.queues → q ∈ s.sql_queues → (s.put_item q item).1 = .ok ()) ∧
    handlersPut hT1 itemC = .conflict := by
  refine ⟨?_, ?_, ?_, by decide⟩
  · intro s q item l hwf hq hl
    have hents := memPut_entries item hl hq
    refine ⟨memPut_ok item hq, ?_, ?_, ?_, ?_⟩
    · rw [hents]
      exact btreeInsert_qlookup_self
    · intro k' hk'
      rw [hents, btreeInsert_qlookup_other hk', memEntries, hl]
      rfl
    · intro it' hget hkey
      have hhead := memGet_head hget
      have hql : qlookup (memEntries (s.put_item q item).2 q) (itemKey it') =
          some it'.message := by
        cases hm : memEntries (s.put_item q item).2 q with
        | nil => rw [hm] at hhead; simp at hhead
        | cons e0 r0 =>
          rw [hm] at hhead
          simp only [List.head?_cons, Option.some.injEq] at hhead
          rw [hhead]
          have hh : ((itemKey it', it'.message) :: r0).head? =
              some (itemKey it', it'.message) := rfl
          exact qlookup_head hh
      rw [hkey, hents, btreeInsert_qlookup_self] at hql
      exact (Option.some.inj hql).symm
    · intro it' hdel hkey
      have hhead := memDelete_head hdel
      have hql : qlookup (memEntries (s.put_item q item).2 q) (itemKey it') =
          some it'.message := by
        cases hm : memEntries (s.put_item q item).2 q with
        | nil => rw [hm] at hhead; simp at hhead
        | cons e0 r0 =>
          rw [hm] at hhead
          simp only [List.head?_cons, Option.some.injEq] at hhead
          rw [hhead]
          have hh : ((itemKey it', it'.message) :: r0).head? =
              some (itemKey it', it'.message) := rfl
          exact qlookup_head hh
      rw [hkey, hents, btreeInsert_qlookup_self] at hql
      exact (Option.some.inj hql).symm
  · intro t item
    refine ⟨tablePut_filter_key t item, ?_⟩
    intro m hm hk
    exact minValid_tablePut_at_key hm hk
  · intro s q item h1 h2
    rw [SqliteStorage.put_item, if_pos h1, if_pos h2]

theorem put_upsert_semantics_witness :
    ((mem0.put_item "alpha" ⟨0, none, "new"⟩).1 = .ok ()) ∧
    ((tablePut sqlT ⟨0, none, "new"⟩).filter
      (fun r => rowKey r = encKey ⟨0, none, "new"⟩) = [mkRow ⟨0, none, "new"⟩]) ∧
    ((sql0.put_item "alpha" ⟨0, none, "new"⟩).1 = .ok ()) :=
  ⟨(put_upsert_semantics.1 mem0 "alpha" ⟨0, none, "new"⟩
      [((0, none), "x"), ((1, some 2), "y")] (by decide) (by decide) (by decide)).1,
   (put_upsert_semantics.2.1 sqlT ⟨0, none, "new"⟩).1,
   put_upsert_semantics.2.2.1 sql0 "alpha" ⟨0, none, "new"⟩ (by decide) (by decide)⟩

/-- Legacy-handler table with two active rows, keys `(0, none)` and
`(1, none)`. -/
def hT2 : List HRow := [⟨(0, none), "a", true⟩, ⟨(1, none), "b", true⟩]

/-- The minimum-key row of `hT2`. -/
def hRowA : HRow := ⟨(0, none), "a", true⟩

/-- **C4** (storage core side): the single-statement dequeue of
`SqliteStorage` serializes, so any schedule of `N` `delete` calls against a
table with `K` active rows hands out exactly `min N K` items with pairwise
distinct keys, each a previously active row.  The legacy HTTP handler
(`handlers.rs` lines 246-297) instead runs a separate `SELECT` then a
separate `UPDATE`: the closing conjuncts evaluate that pair of statements
under the schedule select/select/update/update on the two-row table `hT2` —
both logical calls select the same minimum row `hRowA`, and both updates
report one changed row (the `UPDATE` does not test `valid`), so both calls
answer 200 with the same item while the second row is handed to nobody. -/
theorem atomic_delete_min_distinct :
    (∀ (N : Nat) (t : List Row), WfT t →
      (((deleteN N t).1.filterMap id).length = min N (validCount t) ∧
       (((deleteN N t).1.filterMap id).map rowKey).Nodup ∧
       ∀ r ∈ (deleteN N t).1.filterMap id, r ∈ t ∧ r.valid = true)) ∧
    (handlersSelectMin hT2 = some hRowA ∧
     (handlersUpdateInvalid hT2 hRowA.key).2 = 1 ∧
     (handlersUpdateInvalid (handlersUpdateInvalid hT2 hRowA.key).1 hRowA.key).2 = 1 ∧
     validCount [⟨0, 0, "a", true⟩, ⟨1, 0, "b", true⟩] = 2) := by
  refine ⟨?_, by decide, by decide, by decide, by decide⟩
  intro N t hwf
  exact deleteN_spec N t hwf

theorem atomic_delete_min_distinct_witness :
    (((deleteN 3 sqlT).1.filterMap id).length = min 3 (validCount sqlT)) ∧
    handlersSelectMin hT2 = some hRowA :=
  ⟨(atomic_delete_min_distinct.1 3 sqlT (by decide)).1,
   atomic_delete_min_distinct.2.1⟩

theorem millis_gt_min {t : Int} (h : chronoRepresentable t) :
    i64MIN < timestampMillis t := by
  obtain ⟨h1, h2⟩ := h
  rw [timestampMillis, Int.fdiv_eq_ediv _ (by norm_num), i64MIN]
  omega

/-- **C5**: `put`/`get`/`delete` return `QueueNotFound` exactly on queue
names outside the startup allow-list, a failing call leaves the store state
exactly as it was, and `queue_exists` is the allow-list membership test. -/
theorem allowlist_errors_atomicity :
    (∀ (s : InMemoryStorage) (q : String) (item : QueueItem),
      (((s.put_item q item).1 = .error (.QueueNotFound q) ↔
         q ∉ s.allowed_queues) ∧
       ((s.get_item q).1 = .error (.QueueNotFound q) ↔ q ∉ s.allowed_queues) ∧
       ((s.delete_item q).1 = .error (.QueueNotFound q) ↔ q ∉ s.allowed_queues) ∧
       (∀ e, (s.put_item q item).1 = .error e → (s.put_item q item).2 = s) ∧
       (∀ e, (s.get_item q).1 = .error e → (s.get_item q).2 = s) ∧
       (∀ e, (s.delete_item q).1 = .error e → (s.delete_item q).2 = s) ∧
       (s.queue_exists q = true ↔ q ∈ s.allowed_queues))) ∧
    (∀ (s : SqliteStorage) (q : String) (item : QueueItem), SqlWf s →
      (((s.put_item q item).1 = .error (.QueueNotFound q) ↔ q ∉ s.queues) ∧
       ((s.get_item q).1 = .error (.QueueNotFound q) ↔ q ∉ s.queues) ∧
       ((s.delete_item q).1 = .error (.QueueNotFound q) ↔ q ∉ s.queues) ∧
       (∀ e, (s.put_item q item).1 = .error e → (s.put_item q item).2 = s) ∧
       (∀ e, (s.get_item q).1 = .error e → (s.get_item q).2 = s) ∧
       (∀ e, (s.delete_item q).1 = .error e → (s.delete_item q).2 = s) ∧
       (s.queue_exists q = true ↔ q ∈ s.queues))) := by
  constructor
  · intro s q item
    by_cases hq : q ∈ s.allowed_queues
    · rw [InMemoryStorage.put_item, InMemoryStorage.get_item,
        InMemoryStorage.delete_item, InMemoryStorage.queue_exists]
      rw [if_pos hq, if_pos hq, if_pos hq]
      refine ⟨by simp [hq], by simp [hq], ?_, by simp, by simp, ?_, by simp [hq]⟩
      · constructor
        · intro h
          split at h <;> simp at h
        · intro h
          exact absurd hq h
      · intro e he
        split at he <;> simp at he
    · rw [InMemoryStorage.put_item, InMemoryStorage.get_item,
        InMemoryStorage.delete_item, InMemoryStorage.queue_exists]
      rw [if_neg hq, if_neg hq, if_neg hq]
      refine ⟨by simp [hq], by simp [hq], by simp [hq],
        fun e _ => rfl, fun e _ => rfl, fun e _ => rfl, by simp [hq]⟩
  · intro s q item hwf
    by_cases hq : q ∈ s.queues
    · have hs : q ∈ s.sql_queues := hwf.1 q hq
      rw [SqliteStorage.put_item, SqliteStorage.get_item,
        SqliteStorage.delete_item, SqliteStorage.queue_exists]
      rw [if_pos hq, if_pos hq, if_pos hq, if_pos hs, if_pos hs, if_pos hs]
      exact ⟨by simp [hq], by simp [hq], by simp [hq],
        by simp, by simp, by simp, by simp [hq]⟩
    · rw [SqliteStorage.put_item, SqliteStorage.get_item,
        SqliteStorage.delete_item, SqliteStorage.queue_exists]
      rw [if_neg hq, if_neg hq, if_neg hq]
      exact ⟨by simp [hq], by simp [hq], by simp [hq],
        fun e _ => rfl, fun e _ => rfl, fun e _ => rfl, by simp [hq]⟩

theorem allowlist_errors_atomicity_witness :
    ((mem0.put_item "ghost" item0).1 = .error (.QueueNotFound "ghost")) ∧
    (mem0.queue_exists "alpha" = true) ∧
    ((sql0.get_item "ghost").1 = .error (.QueueNotFound "ghost")) ∧
    (sql0.queue_exists "ghost" = false) :=
  ⟨((allowlist_errors_atomicity.1 mem0 "ghost" item0).1).mpr (by decide),
   ((allowlist_errors_atomicity.1 mem0 "alpha" item0).2.2.2.2.2.2).mpr (by decide),
   ((allowlist_errors_atomicity.2 sql0 "ghost" item0 (by decide)).2.1).mpr (by decide),
   by decide⟩

/-- **C6**: the durable backend encodes an absent secondary timestamp as the
reserved sentinel `i64::MIN`, strictly below the millisecond encoding of
every chrono-representable instant (so absent still sorts strictly first
under the encoded `pairLtb` order), and decoding maps the sentinel back to
absent: an item put with no secondary timestamp reads back with none. -/
theorem sentinel_encoding :
    encodeSecondary none = i64MIN ∧
    (∀ t : Int, chronoRepresentable t → i64MIN < timestampMillis t) ∧
    decodeSecondary i64MIN = none ∧
    (∀ item : QueueItem, item.datetime_secondary = none →
      (rowToItem (mkRow item)).datetime_secondary = none) ∧
    (∀ (d : Int) (t : Int), chronoRepresentable t →
      pairLtb (d, encodeSecondary none) (d, encodeSecondary (some t)) = true) ∧
    (∀ t : Int, chronoRepresentable t →
      decodeSecondary (encodeSecondary (some t)) =
        some (fromTimestampMillis (timestampMillis t))) := by
  refine ⟨rfl, fun t h => millis_gt_min h, by simp [decodeSecondary], ?_, ?_, ?_⟩
  · intro item h
    rw [rowToItem, mkRow, h]
    simp [encodeSecondary, decodeSecondary]
  · intro d t h
    have hlt := millis_gt_min h
    simp only [pairLtb, encodeSecondary, Bool.or_eq_true, Bool.and_eq_true,
      decide_eq_true_eq]
    right
    exact ⟨trivial, hlt⟩
  · intro t h
    have hlt := millis_gt_min h
    rw [encodeSecondary, decodeSecondary, if_neg (by omega)]

theorem sentinel_encoding_witness :
    chronoRepresentable 0 ∧
    i64MIN < timestampMillis 0 ∧
    pairLtb (5, encodeSecondary none) (5, encodeSecondary (some 0)) = true ∧
    decodeSecondary (encodeSecondary (some 0)) =
      some (fromTimestampMillis (timestampMillis 0)) :=
  ⟨by decide,
   sentinel_encoding.2.1 0 (by decide),
   sentinel_encoding.2.2.2.2.1 5 0 (by decide),
   sentinel_encoding.2.2.2.2.2 0 (by decide)⟩

theorem char_class_iff (c : Char) :
    (char_is_ascii_alphanumeric c || c == '_') = true ↔
    (('A' ≤ c ∧ c ≤ 'Z') ∨ ('a' ≤ c ∧ c ≤ 'z') ∨ ('0' ≤ c ∧ c ≤ '9') ∨ c = '_') := by
  simp only [char_is_ascii_alphanumeric, Bool.or_eq_true, Bool.and_eq_true,
    decide_eq_true_eq, beq_iff_eq]
  tauto

theorem sanitize_shape {q r : String} (h : sanitize_queue_name q = some r) :
    r = "queue_" ++ q := by
  rw [sanitize_queue_name] at h
  split at h
  · simp at h
  · exact (Option.some.inj h).symm

/-- **C7**: the name validator accepts exactly the non-empty strings of
ASCII letters, digits and underscores, mapping each to the fixed identifier
`queue_{name}`; it rejects the empty string and any string containing any
other character (hyphens included), and rejection is total — `none`, never a
partial result.  Determinism is by construction: it is a function. -/
theorem sanitize_queue_name_spec :
    (∀ q : String, sanitize_queue_name q = some ("queue_" ++ q) ↔
      (q ≠ "" ∧ ∀ c ∈ q.data,
        ('A' ≤ c ∧ c ≤ 'Z') ∨ ('a' ≤ c ∧ c ≤ 'z') ∨
        ('0' ≤ c ∧ c ≤ '9') ∨ c = '_')) ∧
    sanitize_queue_name "" = none ∧
    (∀ q : String, (∃ c ∈ q.data,
        ¬ (('A' ≤ c ∧ c ≤ 'Z') ∨ ('a' ≤ c ∧ c ≤ 'z') ∨
           ('0' ≤ c ∧ c ≤ '9') ∨ c = '_')) →
      sanitize_queue_name q = none) ∧
    (∀ q : String, '-' ∈ q.data → sanitize_queue_name q = none) ∧
    (∀ q r : String, sanitize_queue_name q = some r → r = "queue_" ++ q) := by
  have hmain : ∀ q : String, sanitize_queue_name q = some ("queue_" ++ q) ↔
      (q ≠ "" ∧ ∀ c ∈ q.data,
        ('A' ≤ c ∧ c ≤ 'Z') ∨ ('a' ≤ c ∧ c ≤ 'z') ∨
        ('0' ≤ c ∧ c ≤ '9') ∨ c = '_') := by
    intro q
    rw [sanitize_queue_name]
    split
    · rename_i hcond
      simp only [Bool.or_eq_true, Bool.not_eq_true', List.all_eq_false] at hcond
      constructor
      · intro h
        simp at h
      · intro ⟨hne, hall⟩
        rcases hcond with hc | ⟨c, hc, hcf⟩
        · exact absurd ((String.isEmpty_iff q).mp hc) hne
        · have h2 := (char_class_iff c).mpr (hall c hc)
          rw [Bool.or_eq_true] at h2
          exact absurd h2 hcf
    · rename_i hcond
      simp only [Bool.or_eq_true, not_or, Bool.not_eq_true',
        Bool.not_eq_false, List.all_eq_true] at hcond
      obtain ⟨hc1, hc2⟩ := hcond
      constructor
      · intro _
        constructor
        · intro hq
          rw [hq] at hc1
          simp [String.isEmpty_iff] at hc1
        · intro c hc
          refine (char_class_iff c).mp ?_
          rw [Bool.or_eq_true]
          exact hc2 c hc
      · intro _
        rfl
  refine ⟨hmain, by decide, ?_, ?_, fun q r h => sanitize_shape h⟩
  · intro q ⟨c, hc, hbad⟩
    cases hs : sanitize_queue_name q with
    | none => rfl
    | some r =>
      have hr := sanitize_shape hs
      subst hr
      have := ((hmain q).mp hs).2 c hc
      exact absurd this hbad
  · intro q hc
    cases hs : sanitize_queue_name q with
    | none => rfl
    | some r =>
      have hr := sanitize_shape hs
      subst hr
      have := ((hmain q).mp hs).2 '-' hc
      exact absurd this (by decide)

theorem sanitize_queue_name_spec_witness :
    sanitize_queue_name "ab_c9" = some "queue_ab_c9" ∧
    sanitize_queue_name "ab-c" = none ∧
    sanitize_queue_name "" = none :=
  ⟨(sanitize_queue_name_spec.1 "ab_c9").mpr (by decide),
   sanitize_queue_name_spec.2.2.2.1 "ab-c" (by decide),
   sanitize_queue_name_spec.2.1⟩

/-- **C8**: serializing a `QueueItem` to JSON and deserializing the result
yields an item whose primary timestamp, secondary timestamp (including
absent) and payload (including the empty string, which serde skips on the
wire and restores via `#[serde(default)]`) equal the original exactly. -/
theorem queue_item_json_roundtrip (i : QueueItem) :
    QueueItem.from_json (QueueItem.to_json i) = i := by
  obtain ⟨d, sec, m⟩ := i
  rw [QueueItem.to_json, QueueItem.from_json]
  by_cases hm : m = ""
  · subst hm
    simp
  · simp [hm]

/-- **C9**: the SQLite backend keys on millisecond-truncated timestamps
(`timestamp_millis` on put), so two puts whose full-precision keys differ
only below a millisecond land on the same composite key — the second
replaces the first — and `get`/`delete` read back the truncated instants
(`from_timestamp_millis`), not the instants that were put; the in-memory
backend keys on the full-precision pair and keeps both items. -/
theorem sqlite_millis_truncation :
    (∀ (t : List Row) (i1 i2 : QueueItem), encKey i1 = encKey i2 →
      (tablePut (tablePut t i1) i2).filter (fun r => rowKey r = encKey i2) =
        [mkRow i2]) ∧
    (∀ (t : List Row) (i1 i2 : QueueItem), encKey i1 = encKey i2 →
      i1.message ≠ i2.message → mkRow i1 ∉ tablePut (tablePut t i1) i2) ∧
    (∀ item : QueueItem,
      (rowToItem (mkRow item)).datetime =
        fromTimestampMillis (timestampMillis item.datetime) ∧
      (item.datetime % 1000000 ≠ 0 →
        (rowToItem (mkRow item)).datetime ≠ item.datetime)) ∧
    (∀ i1 i2 : QueueItem, itemKey i1 ≠ itemKey i2 →
      (btreeInsert (itemKey i2) i2.message
        (btreeInsert (itemKey i1) i1.message [])).length = 2) ∧
    (∃ i1 i2 : QueueItem, itemKey i1 ≠ itemKey i2 ∧ encKey i1 = encKey i2) := by
  refine ⟨?_, ?_, ?_, ?_, ?_⟩
  · intro t i1 i2 _
    exact tablePut_filter_key (tablePut t i1) i2
  · intro t i1 i2 hkey hmsg hmem
    have hk : rowKey (mkRow i1) = encKey i2 := by
      rw [show rowKey (mkRow i1) = encKey i1 from rfl, hkey]
    have h : mkRow i1 ∈ (tablePut (tablePut t i1) i2).filter
        (fun r => (rowKey r = encKey i2 : Bool)) :=
      List.mem_filter.mpr ⟨hmem, by simp [hk]⟩
    rw [tablePut_filter_key] at h
    have := List.mem_singleton.mp h
    apply hmsg
    have hmsg' : (mkRow i1).message = (mkRow i2).message := by
      rw [this]
    exact hmsg'
  · intro item
    constructor
    · rfl
    · intro hsub
      show fromTimestampMillis (timestampMillis item.datetime) ≠ item.datetime
      rw [fromMillis_timestampMillis]
      omega
  · intro i1 i2 hne
    rw [btreeInsert]
    simp only [btreeInsert]
    split
    · rfl
    · split
      · rename_i h1 h2
        exact absurd h2 (fun hh => hne hh.symm)
      · rfl
  · exact ⟨⟨999999, none, "a"⟩, ⟨0, none, "b"⟩, by decide, by decide⟩

theorem sqlite_millis_truncation_witness :
    ((tablePut (tablePut [] ⟨999999, none, "a"⟩) ⟨0, none, "b"⟩).filter
      (fun r => rowKey r = encKey ⟨0, none, "b"⟩) = [mkRow ⟨0, none, "b"⟩]) ∧
    (mkRow ⟨999999, none, "a"⟩ ∉
      tablePut (tablePut [] ⟨999999, none, "a"⟩) ⟨0, none, "b"⟩) ∧
    ((rowToItem (mkRow ⟨1500, none, "z"⟩)).datetime ≠ (1500 : Int)) ∧
    ((btreeInsert (itemKey ⟨0, none, "b"⟩) "b"
      (btreeInsert (itemKey ⟨999999, none, "a"⟩) "a" [])).length = 2) :=
  ⟨sqlite_millis_truncation.1 [] ⟨999999, none, "a"⟩ ⟨0, none, "b"⟩ (by decide),
   sqlite_millis_truncation.2.1 [] ⟨999999, none, "a"⟩ ⟨0, none, "b"⟩
     (by decide) (by decide),
   (sqlite_millis_truncation.2.2.1 ⟨1500, none, "z"⟩).2 (by decide),
   sqlite_millis_truncation.2.2.2.1 ⟨999999, none, "a"⟩ ⟨0, none, "b"⟩ (by decide)⟩

/-- **C10**: in the SQLite backend a `put` whose key equals a tombstoned
row's key goes through `INSERT OR REPLACE`, which drops the tombstoned row
and inserts a fresh row with the column default `valid = 1`: the key becomes
active again and visible to `get`/`delete`, and the tombstone is lost. -/
theorem tombstone_resurrection :
    ∀ (t : List Row) (item : QueueItem) (r : Row), r ∈ t →
      rowKey r = encKey item → r.valid = false →
      (mkRow item ∈ tablePut t item ∧
       (mkRow item).valid = true ∧
       (tablePut t item).filter (fun x => rowKey x = encKey item) = [mkRow item] ∧
       r ∉ tablePut t item ∧
       minValidRow (tablePut t item) ≠ none) := by
  intro t item r hr hk hv
  refine ⟨?_, rfl, tablePut_filter_key t item, ?_, ?_⟩
  · rw [tablePut]
    exact List.mem_append_right _ (List.mem_singleton.mpr rfl)
  · intro hmem
    have h : r ∈ (tablePut t item).filter (fun x => (rowKey x = encKey item : Bool)) :=
      List.mem_filter.mpr ⟨hmem, by simp [hk]⟩
    rw [tablePut_filter_key] at h
    have heq := List.mem_singleton.mp h
    have : r.valid = true := by
      rw [heq]
      rfl
    rw [hv] at this
    exact absurd this (by simp)
  · intro hnone
    have hall := minValidRow_none_iff.mp hnone
    have hm : mkRow item ∈ tablePut t item := by
      rw [tablePut]
      exact List.mem_append_right _ (List.mem_singleton.mpr rfl)
    have := hall (mkRow item) hm
    simp [mkRow] at this

theorem tombstone_resurrection_witness :
    (mkRow ⟨0, none, "new"⟩ ∈ tablePut [⟨0, i64MIN, "old", false⟩] ⟨0, none, "new"⟩) ∧
    (⟨0, i64MIN, "old", false⟩ : Row) ∉
      tablePut [⟨0, i64MIN, "old", false⟩] ⟨0, none, "new"⟩ ∧
    minValidRow (tablePut [⟨0, i64MIN, "old", false⟩] ⟨0, none, "new"⟩) ≠ none := by
  have h := tombstone_resurrection [⟨0, i64MIN, "old", false⟩] ⟨0, none, "new"⟩
    ⟨0, i64MIN, "old", false⟩ (by decide) (by decide) (by decide)
  exact ⟨h.1, h.2.2.2.1, h.2.2.2.2⟩
